import Mathlib

/-!
Verification of the roadmap core and kinodynamic steering of hpp-core.

The roadmap graph (`Roadmap`, nodes, edges, connected components with
directed reachability bookkeeping) is embedded from `src/unnamed/part_000`
(`roadmap.cc`).  Code of the repository that is only declared there —
`ConnectedComponent::canReach`, `ConnectedComponent::merge` and
`KdTree::search` — is modelled from the specification and marked as such.
The kinodynamic steering method is embedded from
`src/src/steering-method/steering-kinodynamic.cc` over the real numbers.
-/

namespace HppCore

/-- A configuration: a dense ordered sequence of real-valued coordinates,
modelled with rational coordinates so that the roadmap operations stay
executable.  Compared by exact coordinate-wise equality. -/
abbrev Config := List ℚ

/-- Opaque path handles.  The roadmap never inspects a path; the only
operation it uses is `reverse`, modelled as a free constructor. -/
inductive Path where
  | prim : ℕ → Path
  | reversed : Path → Path
deriving DecidableEq

/-- A roadmap node: a configuration, a back reference to its connected
component (by component id) and the incoming / outgoing edge lists
(by edge index, in insertion order). -/
structure NodeT where
  conf : Config
  cc : ℕ
  outEdges : List ℕ
  inEdges : List ℕ
deriving DecidableEq

/-- A directed roadmap edge: source node index, target node index and the
opaque path handle. -/
structure EdgeT where
  src : ℕ
  dst : ℕ
  path : Path
deriving DecidableEq

/-- A connected component: its identity `cid` and the directed reachability
bookkeeping sets `reachableTo_` / `reachableFrom_` (lists of component ids;
`std::set` contents, order immaterial for the properties proved here). -/
structure Comp where
  cid : ℕ
  reachableTo : List ℕ
  reachableFrom : List ℕ
deriving DecidableEq

/-- The roadmap state: node list and edge list in insertion order, the set
of connected components, and a counter allocating fresh component ids
(modelling `new ConnectedComponent`). -/
structure Roadmap where
  nodes : List NodeT
  edges : List EdgeT
  comps : List Comp
  nextCC : ℕ
deriving DecidableEq

/-- The empty roadmap produced by `Roadmap::create`. -/
def Roadmap.empty : Roadmap := ⟨[], [], [], 0⟩

/-- The `reachableTo_` list of the component with id `c` (empty when no such
component is tracked). -/
def ccReachTo (comps : List Comp) (c : ℕ) : List ℕ :=
  match comps.find? (fun k => k.cid == c) with
  | some k => k.reachableTo
  | none => []

/-- The `reachableFrom_` list of the component with id `c`. -/
def ccReachFrom (comps : List Comp) (c : ℕ) : List ℕ :=
  match comps.find? (fun k => k.cid == c) with
  | some k => k.reachableFrom
  | none => []

/-- One expansion step of a reachability search frontier: add the
`reachableTo_` successors of every member. -/
def reachStep (comps : List Comp) (s : List ℕ) : List ℕ :=
  s ++ (s.flatMap (ccReachTo comps)).filter (fun x => decide (x ∉ s))

/-- Iterated expansion. -/
def reachIterate (comps : List Comp) : ℕ → List ℕ → List ℕ
  | 0, s => s
  | n + 1, s => reachIterate comps n (reachStep comps s)

/-- Enough iterations to saturate any reachability search over `comps`. -/
def reachFuel (comps : List Comp) : ℕ :=
  (comps.flatMap (fun k => k.reachableTo)).length + 1

/-- All component ids reachable from `c` along `reachableTo_` links
(including `c` itself). -/
def reachableSet (comps : List Comp) (c : ℕ) : List ℕ :=
  reachIterate comps (reachFuel comps) [c]

/-- Modelled from the spec: `ConnectedComponent::canReach(cc)` (declared but
not defined under `src/`) — whether `c2` is reachable from `c1` along the
directed `reachable_to` links; reflexive (`path_exists` counts "or equal"). -/
def canReach (comps : List Comp) (c1 c2 : ℕ) : Bool :=
  (reachableSet comps c1).contains c2

/-- Modelled from the spec: the collecting overload
`ConnectedComponent::canReach(cc1, out)` used by `Roadmap::connect` — it
fills its out-set with `R = {c : cc2 can reach c and c can reach cc1}`,
the components of the roadmap lying on a path from `c2` down to `c1`. -/
def canReachCollect (comps : List Comp) (c2 c1 : ℕ) : List ℕ :=
  ((comps.filter (fun k => canReach comps c2 k.cid && canReach comps k.cid c1)).map
    (fun k => k.cid))

/-- One directed reachability link between components: `b` is listed in
`a`'s `reachable_to` set. -/
def reachRel (comps : List Comp) (a b : ℕ) : Prop :=
  b ∈ ccReachTo comps a

/-- The reachability relation over components generated by the
`reachable_to` links: its reflexive-transitive closure.  This is the
mathematical meaning of the search performed by `canReach`. -/
def Reaches (comps : List Comp) : ℕ → ℕ → Prop :=
  Relation.ReflTransGen (reachRel comps)

/-- Update the element at position `n` (no-op when out of range),
modelling in-place mutation through a node pointer. -/
def listModify {α : Type} (f : α → α) : ℕ → List α → List α
  | _, [] => []
  | 0, a :: l => f a :: l
  | n + 1, a :: l => a :: listModify f n l

/-- `std::set` insertion into a list model: append when absent. -/
def listInsert (l : List ℕ) (x : ℕ) : List ℕ :=
  if x ∈ l then l else l ++ [x]

/-- Replace `old` by `new` in a set modelled as a list
(`erase old; insert new` on a `std::set`). -/
def listReplace (l : List ℕ) (old new : ℕ) : List ℕ :=
  if old ∈ l then
    let l' := l.filter (fun x => decide (x ≠ old))
    if new ∈ l' then l' else l' ++ [new]
  else l

/-- Set union of two lists minus the two merged component ids. -/
def unionMinus (a b : List ℕ) (c cgone : ℕ) : List ℕ :=
  (a ++ b.filter (fun x => decide (x ∉ a))).filter
    (fun x => decide (x ≠ c ∧ x ≠ cgone))

/-- Modelled from the spec: `ConnectedComponent::merge` (declared but not
defined under `src/`) — absorbing component `cgone` into component `c`:
re-point the member nodes, union the reachability sets minus the two
components, and rewrite every other component's reachability sets to
replace `cgone` with `c`.  Removal from the roadmap's component set is done
by the caller `Roadmap::merge`. -/
def mergeInto (rm : Roadmap) (c cgone : ℕ) : Roadmap :=
  let gTo := ccReachTo rm.comps cgone
  let gFrom := ccReachFrom rm.comps cgone
  { rm with
    nodes := rm.nodes.map (fun nd => if nd.cc = cgone then { nd with cc := c } else nd),
    comps := rm.comps.map (fun k =>
      if k.cid = c then
        { k with reachableTo := unionMinus k.reachableTo gTo c cgone,
                 reachableFrom := unionMinus k.reachableFrom gFrom c cgone }
      else
        { k with reachableTo := listReplace k.reachableTo cgone c,
                 reachableFrom := listReplace k.reachableFrom cgone c }) }

/-- `connectedComponents_.erase` — drop the component with id `c`. -/
def eraseComp (rm : Roadmap) (c : ℕ) : Roadmap :=
  { rm with comps := rm.comps.filter (fun k => decide (k.cid ≠ c)) }

/-- `Roadmap::merge` — merge every component of `ccs` other than `c1` into
`c1` and erase it from the roadmap's component set. -/
def Roadmap.merge (rm : Roadmap) (c1 : ℕ) (ccs : List ℕ) : Roadmap :=
  ccs.foldl (fun r c => if c = c1 then r else eraseComp (mergeInto r c1 c) c) rm

/-- Insert `to` in `reachableTo_` of the component with id `c`. -/
def compInsertTo (comps : List Comp) (c toC : ℕ) : List Comp :=
  comps.map (fun k => if k.cid = c then
    { k with reachableTo := listInsert k.reachableTo toC } else k)

/-- Insert `fromC` in `reachableFrom_` of the component with id `c`. -/
def compInsertFrom (comps : List Comp) (c fromC : ℕ) : List Comp :=
  comps.map (fun k => if k.cid = c then
    { k with reachableFrom := listInsert k.reachableFrom fromC } else k)

/-- `Roadmap::connect` — if `c1` already reaches `c2`, nothing; else if `c2`
reaches `c1` the new edge closes a cycle and the collected components are
merged into `c1`; else only the direct pair is recorded. -/
def Roadmap.connect (rm : Roadmap) (c1 c2 : ℕ) : Roadmap :=
  if canReach rm.comps c1 c2 then rm
  else if canReach rm.comps c2 c1 then
    Roadmap.merge rm c1 (canReachCollect rm.comps c2 c1)
  else
    { rm with comps := compInsertFrom (compInsertTo rm.comps c1 c2) c2 c1 }

/-- The component id of node `n` (dereferencing the node pointer). -/
def nodeCC (nodes : List NodeT) (n : ℕ) : ℕ :=
  ((nodes.get? n).map (fun nd => nd.cc)).getD 0

/-- The configuration of node `n`. -/
def nodeConf (nodes : List NodeT) (n : ℕ) : Config :=
  ((nodes.get? n).map (fun nd => nd.conf)).getD []

/-- `Node::addOutEdge`. -/
def attachOut (nodes : List NodeT) (n e : ℕ) : List NodeT :=
  listModify (fun nd => { nd with outEdges := nd.outEdges ++ [e] }) n nodes

/-- `Node::addInEdge`. -/
def attachIn (nodes : List NodeT) (n e : ℕ) : List NodeT :=
  listModify (fun nd => { nd with inEdges := nd.inEdges ++ [e] }) n nodes

/-- `Roadmap::addEdge (n1, n2, path)` — append one directed edge, attach it
to the endpoints' edge lists and connect the endpoint components.  Returns
the new roadmap and the index of the created edge. -/
def Roadmap.addEdge (rm : Roadmap) (n1 n2 : ℕ) (p : Path) : Roadmap × ℕ :=
  let eid := rm.edges.length
  let rm1 : Roadmap := { rm with
    edges := rm.edges ++ [⟨n1, n2, p⟩],
    nodes := attachIn (attachOut rm.nodes n1 eid) n2 eid }
  let cc1 := nodeCC rm.nodes n1
  let cc2 := nodeCC rm.nodes n2
  (Roadmap.connect rm1 cc1 cc2, eid)

/-- `Roadmap::addEdges (from, to, path)` — append the forward edge and the
reverse edge with the reversed path, attaching both to the endpoints' edge
lists.  (The source performs no `connect` here.) -/
def Roadmap.addEdges (rm : Roadmap) (f t : ℕ) (p : Path) : Roadmap :=
  let e1 := rm.edges.length
  let rm1 : Roadmap := { rm with
    edges := rm.edges ++ [⟨f, t, p⟩],
    nodes := attachIn (attachOut rm.nodes f e1) t e1 }
  let e2 := rm1.edges.length
  { rm1 with
    edges := rm1.edges ++ [⟨t, f, Path.reversed p⟩],
    nodes := attachOut (attachIn rm1.nodes f e2) t e2 }

/-- Inner loop of the per-component nearest-neighbor search: scan the node
list keeping the closest node whose component id is `c`; a strictly smaller
distance replaces the incumbent, so ties are broken by insertion order. -/
def searchGo (d : Config → Config → ℚ) (q : Config) (c : ℕ) :
    List NodeT → ℕ → Option (ℕ × ℚ) → Option (ℕ × ℚ)
  | [], _, best => best
  | nd :: rest, i, best =>
    let best' :=
      if nd.cc = c then
        match best with
        | none => some (i, d q nd.conf)
        | some (bn, bd) => if d q nd.conf < bd then some (i, d q nd.conf) else some (bn, bd)
      else best
    searchGo d q c rest (i + 1) best'

/-- Modelled from the spec: `KdTree::search(q, cc, dist)` (the k-d tree
implementation is not under `src/`) — the nearest-neighbor query restricted
to nodes of component `c`; per the spec it agrees with a brute-force scan
over the component's nodes, ties broken by insertion order.  Returns `none`
when the component has no node. -/
def kdSearch (d : Config → Config → ℚ) (nodes : List NodeT) (q : Config) (c : ℕ) :
    Option (ℕ × ℚ) :=
  searchGo d q c nodes 0 none

/-- Fold of `Roadmap::nearestNode` over the connected components: keep the
result of the per-component search when its distance is strictly below the
incumbent (`minDistance` starts at `+∞`, modelled by `⊤`; a null closest
node is modelled by `none`). -/
def nearGo (d : Config → Config → ℚ) (nodes : List NodeT) (q : Config) :
    List Comp → Option ℕ × WithTop ℚ → Option ℕ × WithTop ℚ
  | [], best => best
  | k :: rest, best =>
    match kdSearch d nodes q k.cid with
    | none => nearGo d nodes q rest best
    | some (n, dist) =>
      if (dist : WithTop ℚ) < best.2 then nearGo d nodes q rest (some n, (dist : WithTop ℚ))
      else nearGo d nodes q rest best

/-- `Roadmap::nearestNode (configuration, minDistance)` — global nearest
node, computed as the minimum over the per-component k-d tree searches. -/
def Roadmap.nearestNode (d : Config → Config → ℚ) (rm : Roadmap) (q : Config) :
    Option ℕ × WithTop ℚ :=
  nearGo d rm.nodes q rm.comps (none, ⊤)

/-- `Roadmap::addNode (configuration)` — if the roadmap is non-empty and the
global nearest node has a configuration equal to `q`, return it
(deduplication); otherwise create a new node together with a fresh
connected component holding just that node, register both, and insert the
node in the k-d tree.  Returns the new roadmap and the node index. -/
def Roadmap.addNode (d : Config → Config → ℚ) (rm : Roadmap) (q : Config) :
    Roadmap × ℕ :=
  let fresh : Roadmap × ℕ :=
    ({ rm with
        nodes := rm.nodes ++ [⟨q, rm.nextCC, [], []⟩],
        comps := rm.comps ++ [⟨rm.nextCC, [], []⟩],
        nextCC := rm.nextCC + 1 }, rm.nodes.length)
  if rm.nodes.length ≠ 0 then
    match Roadmap.nearestNode d rm q with
    | (some n, _) => if nodeConf rm.nodes n = q then (rm, n) else fresh
    | (none, _) => fresh
  else fresh

/-- Sum of coordinate-wise absolute differences. -/
def absSum : Config → Config → ℚ
  | [], _ => 0
  | _, [] => 0
  | x :: xs, y :: ys => |x - y| + absSum xs ys

/-- A concrete distance metric used to instantiate the witnesses: the L1
metric on equal-length configurations (distance 1 on a dimension mismatch),
which is symmetric, non-negative and zero iff coordinate-equal, as the spec
requires of the user-supplied metric. -/
def distL1 (a b : Config) : ℚ :=
  if a.length = b.length then absSum a b else 1

/-- The claimed behaviour of `add_edges`: `add_edge(from,to,path)` followed
by `add_edge(to,from,path.reverse())`.  Stated from the spec's words, to be
compared with `Roadmap.addEdges` embedded from the source. -/
def addEdgesSpec (rm : Roadmap) (f t : ℕ) (p : Path) : Roadmap :=
  (Roadmap.addEdge (Roadmap.addEdge rm f t p).1 t f (Path.reversed p)).1

/-! ### Kinodynamic steering (`src/src/steering-method/steering-kinodynamic.cc`) -/

/-- The `sgn` helper used by the steering method: `(x>0) - (x<0)`. -/
noncomputable def sgnR (x : ℝ) : ℝ :=
  if 0 < x then 1 else if x < 0 then -1 else 0

/-- Result of `Kinodynamic::computeMinTime`: the acceleration sign `sigma`
and the durations of the acceleration, cruise and deceleration segments
(`t1`, `tv`, `t2`), with total time `T = t1 + tv + t2`. -/
structure MinTimeOut where
  sigma : ℝ
  t1 : ℝ
  tv : ℝ
  t2 : ℝ
  T : ℝ


/-- `Kinodynamic::computeMinTime(p1, p2, v1, v2, ...)`, embedded over the
reals with the member bounds `aM = aMax_` and `vM = vMax_` as arguments.
The two-segment candidate is kept exactly when the larger quadratic root
exceeds `minT1` and the signed test `v1 + t1*a1 > vLim` does not fire;
otherwise the three-segment (cruise) form is used. -/
noncomputable def computeMinTime (aM vM p1 p2 v1 v2 : ℝ) : MinTimeOut :=
  let deltaPacc := 0.5 * (v1 - v2) * (|v2 - v1| / aM)
  let sigma := sgnR (p2 - p1 - deltaPacc)
  let a1 := sigma * aM
  let a2 := -a1
  let vLim := sigma * vM
  let minT1 := max 0 ((v2 - v1) / a2)
  let delta := 4 * v1 * v1 - 4 * a1 * ((v2 * v2 - v1 * v1) / (2 * a2) - (p2 - p1))
  let x1 := (-2 * v1 + Real.sqrt delta) / (2 * a1)
  let x2 := (-2 * v1 - Real.sqrt delta) / (2 * a1)
  let x := max x1 x2
  if minT1 < x ∧ ¬ vLim < v1 + x * a1 then
    ⟨sigma, x, 0, (v2 - v1) / a2 + x, x + 0 + ((v2 - v1) / a2 + x)⟩
  else
    let t1 := (vLim - v1) / a1
    let tv := (v1 * v1 + v2 * v2 - 2 * vLim * vLim) / (2 * vLim * a1) + (p2 - p1) / vLim
    let t2 := (v2 - vLim) / a2
    ⟨sigma, t1, tv, t2, t1 + tv + t2⟩

/-- The state set up by the `Kinodynamic` steering-method constructor: the
acceleration and velocity bounds, and whether the extra-DOF validation
printed its error message. -/
structure Kinodynamic where
  aMax : ℝ
  vMax : ℝ
  extraDofErrorLogged : Bool


/-- `Kinodynamic::Kinodynamic(problem)` — embeds the constructor body: when
`2 * extraConfigSpace.dimension() < configSize` an error is written to the
log, and in every case the object is produced with `aMax_ = 0.5` and
`vMax_ = 1`. -/
noncomputable def Kinodynamic.make (extraDim configSize : ℕ) : Kinodynamic :=
  { aMax := 0.5, vMax := 1,
    extraDofErrorLogged := decide (2 * extraDim < configSize) }

/-! ### Concrete instances used in counterexamples and witnesses -/

/-- The part of a node unaffected by component bookkeeping: configuration
and incident edge lists. -/
def nodeSkel (nd : NodeT) : Config × List ℕ × List ℕ :=
  (nd.conf, nd.outEdges, nd.inEdges)

/-- A two-node roadmap whose nodes sit in two distinct connected components
with no reachability recorded yet. -/
def rmTwoComps : Roadmap :=
  { nodes := [⟨[0], 0, [], []⟩, ⟨[1], 1, [], []⟩],
    edges := [],
    comps := [⟨0, [], []⟩, ⟨1, [], []⟩],
    nextCC := 2 }

/-- A two-component roadmap where component 1 already reaches component 0
(one directed edge 1 → 0 was recorded), so that `connect 0 1` closes a
directed cycle. -/
def rmCycle : Roadmap :=
  { nodes := [⟨[0], 0, [], []⟩, ⟨[1], 1, [], []⟩],
    edges := [],
    comps := [⟨0, [], [1]⟩, ⟨1, [0], []⟩],
    nextCC := 2 }

/-- A roadmap holding the single configuration `[5]`. -/
def rmOne : Roadmap :=
  { nodes := [⟨[5], 0, [], []⟩],
    edges := [],
    comps := [⟨0, [], []⟩],
    nextCC := 1 }

/-- A three-node roadmap split across two components, used to check the
global nearest-node query. -/
def rmClusters : Roadmap :=
  { nodes := [⟨[0], 0, [], []⟩, ⟨[10], 1, [], []⟩, ⟨[3], 0, [], []⟩],
    edges := [],
    comps := [⟨0, [], []⟩, ⟨1, [], []⟩],
    nextCC := 2 }

/-- The discrete metric: 0 on equal configurations, 1 otherwise.  It is
symmetric, non-negative and zero iff coordinate-equal, as the spec requires
of the user-supplied metric. -/
def distDisc (a b : Config) : ℚ := if a = b then 0 else 1

/-- A roadmap built by a sequence of legal operations: three distinct
configurations added with `addNode` (under the discrete metric), then
`add_edge(0,1)` and `add_edge(1,2)`, leaving three components chained
`0 → 1 → 2`. -/
def rmChain : Roadmap :=
  (Roadmap.addEdge
    (Roadmap.addEdge
      ((Roadmap.addNode distDisc
        ((Roadmap.addNode distDisc
          ((Roadmap.addNode distDisc Roadmap.empty [0]).1) [1]).1) [2]).1)
      0 1 (Path.prim 0)).1
    1 2 (Path.prim 1)).1

/-! ### Theorems: kinodynamic steering claims -/

theorem sqrt_four_hundred : Real.sqrt 400 = 20 := by
  rw [show (400 : ℝ) = 20 ^ 2 by norm_num, Real.sqrt_sq (by norm_num)]

theorem sqrt_sixteen : Real.sqrt 16 = 4 := by
  rw [show (16 : ℝ) = 4 ^ 2 by norm_num, Real.sqrt_sq (by norm_num)]

/-- Evaluation of `computeMinTime` on the S6 scenario with `a_max = 1`,
`v_max = 1`: the quadratic root is `t1 = 10`, its peak velocity `10`
exceeds `v_lim = 1`, so the three-segment branch fires with `t1 = 1`,
`tv = 99`, `t2 = 1`, `T = 101`. -/
theorem minTime_S6_eval : computeMinTime 1 1 0 100 0 0 = ⟨1, 1, 99, 1, 101⟩ := by
  unfold computeMinTime sgnR
  norm_num [sqrt_four_hundred]

/-- Evaluation of `computeMinTime` on `p1 = 0`, `p2 = -8`, `v1 = v2 = 0`
with the constructor's bounds `aMax_ = 0.5`, `vMax_ = 1`: the sign is
`σ = -1` and the two-segment solution `t1 = t2 = 4`, `tv = 0` is kept. -/
theorem minTime_negdir_eval : computeMinTime 0.5 1 0 (-8) 0 0 = ⟨-1, 4, 0, 4, 8⟩ := by
  unfold computeMinTime sgnR
  norm_num [sqrt_sixteen]

/-- C6 (counterexample): constructing the Kinodynamic steering method for a
robot with `extraConfigSpace.dimension() = 0` and `configSize = 2` — which
trips the validation `2 * extraDim < configSize` — does not fail: the
constructor returns the fully initialised steering object with the fixed
bounds, merely recording the logged error message. -/
theorem C6_construction_succeeds_despite_extra_dof_mismatch :
    Kinodynamic.make 0 2 = { aMax := 0.5, vMax := 1, extraDofErrorLogged := true } :=
  rfl

/-- C6 (amended): whenever the robot exposes too few extra DOFs
(`2 * extraDim < configSize`), the Kinodynamic constructor logs an error
but still succeeds, producing the usual steering object with `aMax_ = 0.5`
and `vMax_ = 1`; no structured error is returned to the caller. -/
theorem C6_amended_extra_dof_mismatch_only_logged (e c : ℕ) (h : 2 * e < c) :
    Kinodynamic.make e c = { aMax := 0.5, vMax := 1, extraDofErrorLogged := true } := by
  simp [Kinodynamic.make, h]

theorem C6_amended_extra_dof_mismatch_only_logged_witness :
    Kinodynamic.make 0 2 = { aMax := 0.5, vMax := 1, extraDofErrorLogged := true } :=
  C6_amended_extra_dof_mismatch_only_logged 0 2 (by decide)

/-- C7: on input `p1 = 0`, `p2 = -8`, `v1 = v2 = 0` with the constructor's
bounds `aMax_ = 0.5`, `vMax_ = 1`, the acceleration sign is `σ = -1` and
`computeMinTime` keeps the two-segment solution (`tv = 0`, `t1 = t2 = 4`)
although its peak velocity `v1 + t1·a1 = -2` exceeds `v_max = 1` in
magnitude: the signed test `v1 + t1·a1 > vLim` is inverted for `σ = -1`,
contradicting the code's own comment "check if max velocity is respected"
and the spec's magnitude condition. -/
theorem C7_sigma_neg_velocity_check_inverted :
    (computeMinTime 0.5 1 0 (-8) 0 0).sigma = -1 ∧
    (computeMinTime 0.5 1 0 (-8) 0 0).tv = 0 ∧
    (computeMinTime 0.5 1 0 (-8) 0 0).t1 = 4 ∧
    1 < |(0 : ℝ) + (computeMinTime 0.5 1 0 (-8) 0 0).t1 *
          ((computeMinTime 0.5 1 0 (-8) 0 0).sigma * 0.5)| := by
  rw [minTime_negdir_eval]
  norm_num

/-- C8 (counterexample): on the S6 scenario (`p1 = 0`, `p2 = 100`,
`v1 = v2 = 0`, `a_max = 1`, `v_max = 1`) the code does not produce the
claimed `t1 = 1`, `tv = 98`, `t2 = 1`, `T = 100`: the cruise segment lasts
`99`, not `98`, and the total time is `101`. -/
theorem C8_S6_expected_numbers_false :
    ¬ ((computeMinTime 1 1 0 100 0 0).t1 = 1 ∧ (computeMinTime 1 1 0 100 0 0).tv = 98 ∧
       (computeMinTime 1 1 0 100 0 0).t2 = 1 ∧ (computeMinTime 1 1 0 100 0 0).T = 100) := by
  rw [minTime_S6_eval]
  norm_num

/-- C8 (amended): the S6 single-axis input with `a_max = 1`, `v_max = 1`
produces a three-segment trajectory with a cruise phase (`tv ≠ 0`), with
`t1 = 1`, `t2 = 1`, `tv = 99` and total time `T = 101`. -/
theorem C8_amended_S6_three_segment :
    computeMinTime 1 1 0 100 0 0 = ⟨1, 1, 99, 1, 101⟩ ∧
    (computeMinTime 1 1 0 100 0 0).tv ≠ 0 := by
  refine ⟨minTime_S6_eval, ?_⟩
  rw [minTime_S6_eval]
  norm_num

/-- C9: for every robot (any extra-DOF dimension `e` and configuration size
`c`), the Kinodynamic steering constructor sets the acceleration bound
`aMax_` to `0.5` and the velocity bound `vMax_` to `1`; `computeMinTime`
and `fixedTimeTrajectory` therefore always run with these member bounds
regardless of the robot's kinematic limits. -/
theorem C9_constructor_hardcodes_bounds (e c : ℕ) :
    (Kinodynamic.make e c).aMax = 0.5 ∧ (Kinodynamic.make e c).vMax = 1 :=
  ⟨rfl, rfl⟩

/-! ### Theorems: roadmap claims -/

/-- C10: on a roadmap with no connected components, `nearestNode` does not
fail: the loop body never runs, so it returns the null node handle
(`none`) with distance `+∞` (`⊤`), and — being a query — leaves the
roadmap unchanged. -/
theorem C10_nearest_on_empty_roadmap (d : Config → Config → ℚ) (rm : Roadmap)
    (q : Config) (h : rm.comps = []) :
    Roadmap.nearestNode d rm q = (none, ⊤) := by
  unfold Roadmap.nearestNode
  rw [h]
  rfl

theorem C10_nearest_on_empty_roadmap_witness :
    Roadmap.nearestNode distL1 Roadmap.empty [0] = (none, ⊤) :=
  C10_nearest_on_empty_roadmap distL1 Roadmap.empty [0] rfl

/-- `listModify` on the empty list. -/
theorem listModify_nil {α : Type} (f : α → α) :
    ∀ n : ℕ, listModify f n [] = ([] : List α)
  | 0 => rfl
  | _ + 1 => rfl

/-- `listModify` applications at two positions commute when the updates
commute element-wise. -/
theorem listModify_comm {α : Type} (f g : α → α) (hfg : ∀ x, f (g x) = g (f x)) :
    ∀ (a b : ℕ) (l : List α),
      listModify f a (listModify g b l) = listModify g b (listModify f a l)
  | _, _, [] => by simp [listModify_nil]
  | 0, 0, x :: _ => by simp [listModify, hfg x]
  | 0, _ + 1, _ :: _ => by simp [listModify]
  | _ + 1, 0, _ :: _ => by simp [listModify]
  | a + 1, b + 1, x :: l => by simp [listModify, listModify_comm f g hfg a b l]

/-- `listModify` is invisible to a projection the update preserves. -/
theorem listModify_map_invariant {α β : Type} (f : α → α) (g : α → β)
    (h : ∀ x, g (f x) = g x) :
    ∀ (n : ℕ) (l : List α), (listModify f n l).map g = l.map g
  | _, [] => by simp [listModify_nil]
  | 0, x :: l => by simp [listModify, h x]
  | n + 1, x :: l => by simp [listModify, listModify_map_invariant f g h n l]

/-- Attaching an outgoing and an incoming edge commutes, also on the same
node, since they touch different fields. -/
theorem attachIn_attachOut_comm (l : List NodeT) (a b e e' : ℕ) :
    attachIn (attachOut l a e) b e' = attachOut (attachIn l b e') a e := by
  unfold attachIn attachOut
  rw [listModify_comm]
  intro x
  rfl

/-- `attachOut` acts identically on node lists with equal skeletons. -/
theorem map_nodeSkel_attachOut :
    ∀ (i : ℕ) (A B : List NodeT) (e : ℕ),
      A.map nodeSkel = B.map nodeSkel →
      (attachOut A i e).map nodeSkel = (attachOut B i e).map nodeSkel
  | _, [], [], _, _ => rfl
  | _, [], _ :: _, _, h => by simp at h
  | _, _ :: _, [], _, h => by simp at h
  | 0, a :: A, b :: B, e, h => by
    simp only [List.map_cons, List.cons.injEq] at h
    simp only [attachOut, listModify, List.map_cons, List.cons.injEq]
    refine ⟨?_, h.2⟩
    simp only [nodeSkel, Prod.mk.injEq] at h ⊢
    exact ⟨h.1.1, h.1.2.1 ▸ rfl, h.1.2.2⟩
  | i + 1, a :: A, b :: B, e, h => by
    simp only [List.map_cons, List.cons.injEq] at h
    simp only [attachOut, listModify, List.map_cons, List.cons.injEq]
    have ih := map_nodeSkel_attachOut i A B e h.2
    simp only [attachOut] at ih
    exact ⟨h.1, ih⟩

/-- `attachIn` acts identically on node lists with equal skeletons. -/
theorem map_nodeSkel_attachIn :
    ∀ (i : ℕ) (A B : List NodeT) (e : ℕ),
      A.map nodeSkel = B.map nodeSkel →
      (attachIn A i e).map nodeSkel = (attachIn B i e).map nodeSkel
  | _, [], [], _, _ => rfl
  | _, [], _ :: _, _, h => by simp at h
  | _, _ :: _, [], _, h => by simp at h
  | 0, a :: A, b :: B, e, h => by
    simp only [List.map_cons, List.cons.injEq] at h
    simp only [attachIn, listModify, List.map_cons, List.cons.injEq]
    refine ⟨?_, h.2⟩
    simp only [nodeSkel, Prod.mk.injEq] at h ⊢
    exact ⟨h.1.1, h.1.2.1, h.1.2.2 ▸ rfl⟩
  | i + 1, a :: A, b :: B, e, h => by
    simp only [List.map_cons, List.cons.injEq] at h
    simp only [attachIn, listModify, List.map_cons, List.cons.injEq]
    have ih := map_nodeSkel_attachIn i A B e h.2
    simp only [attachIn] at ih
    exact ⟨h.1, ih⟩

/-- `ConnectedComponent::merge` does not touch the edge list. -/
theorem mergeInto_edges (rm : Roadmap) (c cg : ℕ) :
    (mergeInto rm c cg).edges = rm.edges :=
  rfl

/-- `Roadmap::merge` does not touch the edge list. -/
theorem merge_edges : ∀ (l : List ℕ) (rm : Roadmap) (c1 : ℕ),
    (Roadmap.merge rm c1 l).edges = rm.edges
  | [], _, _ => rfl
  | c :: l, rm, c1 => by
    show (Roadmap.merge (if c = c1 then rm
      else eraseComp (mergeInto rm c1 c) c) c1 l).edges = rm.edges
    split
    · exact merge_edges l rm c1
    · rw [merge_edges l _ c1]
      rfl

/-- `Roadmap::connect` does not touch the edge list. -/
theorem connect_edges (rm : Roadmap) (c1 c2 : ℕ) :
    (Roadmap.connect rm c1 c2).edges = rm.edges := by
  unfold Roadmap.connect
  split
  · rfl
  split
  · exact merge_edges _ rm c1
  · rfl

/-- Component merging re-points nodes but preserves their skeletons. -/
theorem mergeInto_skel (rm : Roadmap) (c cg : ℕ) :
    (mergeInto rm c cg).nodes.map nodeSkel = rm.nodes.map nodeSkel := by
  simp only [mergeInto, List.map_map]
  apply List.map_congr_left
  intro nd _
  by_cases h : nd.cc = cg <;> simp [h, nodeSkel]

/-- `Roadmap::merge` preserves node skeletons. -/
theorem merge_skel : ∀ (l : List ℕ) (rm : Roadmap) (c1 : ℕ),
    (Roadmap.merge rm c1 l).nodes.map nodeSkel = rm.nodes.map nodeSkel
  | [], _, _ => rfl
  | c :: l, rm, c1 => by
    show (Roadmap.merge (if c = c1 then rm
      else eraseComp (mergeInto rm c1 c) c) c1 l).nodes.map nodeSkel =
        rm.nodes.map nodeSkel
    split
    · exact merge_skel l rm c1
    · rw [merge_skel l _ c1]
      exact mergeInto_skel rm c1 c

/-- `Roadmap::connect` preserves node skeletons. -/
theorem connect_skel (rm : Roadmap) (c1 c2 : ℕ) :
    (Roadmap.connect rm c1 c2).nodes.map nodeSkel = rm.nodes.map nodeSkel := by
  unfold Roadmap.connect
  split
  · rfl
  split
  · exact merge_skel _ rm c1
  · rfl

/-- The edge list produced by `Roadmap::addEdge`. -/
theorem addEdge_fst_edges (rm : Roadmap) (n1 n2 : ℕ) (p : Path) :
    (Roadmap.addEdge rm n1 n2 p).1.edges = rm.edges ++ [⟨n1, n2, p⟩] := by
  simp only [Roadmap.addEdge]
  rw [connect_edges]

/-- The node skeletons produced by `Roadmap::addEdge`. -/
theorem addEdge_fst_skel (rm : Roadmap) (n1 n2 : ℕ) (p : Path) :
    (Roadmap.addEdge rm n1 n2 p).1.nodes.map nodeSkel =
      (attachIn (attachOut rm.nodes n1 rm.edges.length) n2
        rm.edges.length).map nodeSkel := by
  simp only [Roadmap.addEdge]
  rw [connect_skel]

/-- C1 (counterexample): on a two-node roadmap with two fresh components,
`add_edges(0, 1, p)` differs from `add_edge(0,1,p); add_edge(1,0,p.reverse())`:
the former performs no `connect` and leaves both components untouched,
while the latter merges them. -/
theorem C1_addEdges_differs_from_addEdge_composition :
    Roadmap.addEdges rmTwoComps 0 1 (Path.prim 0) ≠
      addEdgesSpec rmTwoComps 0 1 (Path.prim 0) := by
  decide

/-- C1 (amended): `add_edges(from, to, path)` appends the same two edges in
the same order as `add_edge(from,to,path); add_edge(to,from,path.reverse())`
and attaches them identically to the endpoints' edge lists (the node
skeletons — configuration plus incident edge lists — agree), but performs
no `connect`: the component set and every node's component pointer are left
exactly as they were. -/
theorem C1_amended_addEdges_appends_edges_but_skips_connect
    (rm : Roadmap) (f t : ℕ) (p : Path) :
    (Roadmap.addEdges rm f t p).edges = (addEdgesSpec rm f t p).edges ∧
    (Roadmap.addEdges rm f t p).nodes.map nodeSkel =
      (addEdgesSpec rm f t p).nodes.map nodeSkel ∧
    (Roadmap.addEdges rm f t p).comps = rm.comps ∧
    (Roadmap.addEdges rm f t p).nodes.map (fun nd => nd.cc) =
      rm.nodes.map (fun nd => nd.cc) := by
  have hlen : (Roadmap.addEdge rm f t p).1.edges.length = rm.edges.length + 1 := by
    rw [addEdge_fst_edges]
    simp
  refine ⟨?_, ?_, rfl, ?_⟩
  · rw [show addEdgesSpec rm f t p =
        (Roadmap.addEdge (Roadmap.addEdge rm f t p).1 t f (Path.reversed p)).1 from rfl]
    rw [addEdge_fst_edges, addEdge_fst_edges]
    simp [Roadmap.addEdges]
  · rw [show addEdgesSpec rm f t p =
        (Roadmap.addEdge (Roadmap.addEdge rm f t p).1 t f (Path.reversed p)).1 from rfl]
    rw [addEdge_fst_skel, hlen]
    have hinner := addEdge_fst_skel rm f t p
    have hstep := map_nodeSkel_attachOut t (Roadmap.addEdge rm f t p).1.nodes
      (attachIn (attachOut rm.nodes f rm.edges.length) t rm.edges.length)
      (rm.edges.length + 1) hinner
    have hcong := map_nodeSkel_attachIn f
      (attachOut (Roadmap.addEdge rm f t p).1.nodes t (rm.edges.length + 1))
      (attachOut (attachIn (attachOut rm.nodes f rm.edges.length) t rm.edges.length)
        t (rm.edges.length + 1))
      (rm.edges.length + 1) hstep
    rw [hcong]
    have haddE : (Roadmap.addEdges rm f t p).nodes =
        attachOut (attachIn (attachIn (attachOut rm.nodes f rm.edges.length) t
          rm.edges.length) f (rm.edges.length + 1)) t (rm.edges.length + 1) := by
      simp [Roadmap.addEdges]
    rw [haddE, ← attachIn_attachOut_comm]
  · simp only [Roadmap.addEdges, attachIn, attachOut]
    rw [listModify_map_invariant, listModify_map_invariant,
        listModify_map_invariant, listModify_map_invariant] <;>
      intro x <;> rfl

/-- `ConnectedComponent::merge` keeps the component ids of the tracked set
unchanged (only their reachability fields are rewritten). -/
theorem mergeInto_cids (rm : Roadmap) (c cg : ℕ) :
    (mergeInto rm c cg).comps.map (fun k => k.cid) =
      rm.comps.map (fun k => k.cid) := by
  simp only [mergeInto, List.map_map]
  apply List.map_congr_left
  intro k _
  by_cases h : k.cid = c <;> simp [h]

/-- `Roadmap::merge` never adds a component id. -/
theorem merge_cids_subset : ∀ (l : List ℕ) (rm : Roadmap) (c1 x : ℕ),
    x ∈ (Roadmap.merge rm c1 l).comps.map (fun k => k.cid) →
    x ∈ rm.comps.map (fun k => k.cid)
  | [], _, _, _ => fun h => h
  | c :: l, rm, c1, x => fun h => by
    rw [show Roadmap.merge rm c1 (c :: l) =
      Roadmap.merge (if c = c1 then rm
        else eraseComp (mergeInto rm c1 c) c) c1 l from rfl] at h
    by_cases hc : c = c1
    · rw [if_pos hc] at h
      exact merge_cids_subset l rm c1 x h
    · rw [if_neg hc] at h
      have h2 := merge_cids_subset l _ c1 x h
      rw [← mergeInto_cids rm c1 c]
      simp only [eraseComp] at h2
      rcases List.mem_map.mp h2 with ⟨k, hk, rfl⟩
      exact List.mem_map.mpr ⟨k, (List.mem_filter.mp hk).1, rfl⟩

/-- Every component of the merge list other than the absorbing one is
erased from the roadmap's component set for good. -/
theorem merge_removes : ∀ (l : List ℕ) (rm : Roadmap) (c1 c : ℕ),
    c ∈ l → c ≠ c1 → c ∉ (Roadmap.merge rm c1 l).comps.map (fun k => k.cid)
  | [], _, _, _ => fun hc _ => absurd hc (List.not_mem_nil _)
  | c' :: l, rm, c1, c => fun hc hne => by
    rw [show Roadmap.merge rm c1 (c' :: l) =
      Roadmap.merge (if c' = c1 then rm
        else eraseComp (mergeInto rm c1 c') c') c1 l from rfl]
    rcases List.mem_cons.mp hc with rfl | hmem
    · rw [if_neg hne]
      intro habs
      have hsub := merge_cids_subset l _ c1 c habs
      simp only [eraseComp] at hsub
      rcases List.mem_map.mp hsub with ⟨k, hk, rfl⟩
      have := (List.mem_filter.mp hk).2
      simp at this
    · by_cases h1 : c' = c1
      · rw [if_pos h1]
        exact merge_removes l rm c1 c hmem hne
      · rw [if_neg h1]
        exact merge_removes l _ c1 c hmem hne

/-- The component pointers of the nodes after `Roadmap::merge`: every node
whose component is in the merge list (other than the absorbing component
`c1`) is re-pointed to `c1`; all other nodes keep their component. -/
theorem merge_node_cc : ∀ (l : List ℕ) (rm : Roadmap) (c1 : ℕ),
    (Roadmap.merge rm c1 l).nodes.map (fun nd => nd.cc) =
      rm.nodes.map (fun nd => if nd.cc ∈ l ∧ nd.cc ≠ c1 then c1 else nd.cc)
  | [], rm, c1 => by simp [Roadmap.merge]
  | c :: l, rm, c1 => by
    rw [show Roadmap.merge rm c1 (c :: l) =
      Roadmap.merge (if c = c1 then rm
        else eraseComp (mergeInto rm c1 c) c) c1 l from rfl]
    by_cases hc : c = c1
    · rw [if_pos hc, merge_node_cc l rm c1]
      subst hc
      apply List.map_congr_left
      intro nd _
      by_cases h2 : nd.cc = c <;> simp [h2, List.mem_cons]
    · rw [if_neg hc, merge_node_cc l _ c1]
      simp only [eraseComp, mergeInto, List.map_map]
      apply List.map_congr_left
      intro nd _
      by_cases h2 : nd.cc = c
      · simp [h2, hc, Ne.symm hc]
      · by_cases h3 : nd.cc ∈ l ∧ nd.cc ≠ c1 <;>
          simp_all [List.mem_cons]

/-- C3: when `connect(cc1, cc2)` is called, `cc1` does not already reach
`cc2`, and `cc2` can reach `cc1` (the new edge closes a directed cycle),
every component of `R = {c : cc2 can reach c and c can reach cc1}` other
than `cc1` is merged into `cc1` — its nodes are re-pointed to `cc1` — and
removed from the roadmap's component set, so no component of the cycle
other than `cc1` survives. -/
theorem C3_cycle_components_merged_and_removed (rm : Roadmap) (c1 c2 : ℕ)
    (hfwd : canReach rm.comps c1 c2 = false)
    (hback : canReach rm.comps c2 c1 = true) :
    (∀ c ∈ canReachCollect rm.comps c2 c1, c ≠ c1 →
      c ∉ (Roadmap.connect rm c1 c2).comps.map (fun k => k.cid)) ∧
    (Roadmap.connect rm c1 c2).nodes.map (fun nd => nd.cc) =
      rm.nodes.map (fun nd =>
        if nd.cc ∈ canReachCollect rm.comps c2 c1 ∧ nd.cc ≠ c1 then c1
        else nd.cc) := by
  have hconn : Roadmap.connect rm c1 c2 =
      Roadmap.merge rm c1 (canReachCollect rm.comps c2 c1) := by
    unfold Roadmap.connect
    rw [hfwd, hback]
    simp
  rw [hconn]
  exact ⟨fun c hcm hne => merge_removes _ rm c1 c hcm hne,
    merge_node_cc _ rm c1⟩

theorem C3_cycle_components_merged_and_removed_witness :
    1 ∉ (Roadmap.connect rmCycle 0 1).comps.map (fun k => k.cid) ∧
    (Roadmap.connect rmCycle 0 1).nodes.map (fun nd => nd.cc) = [0, 0] := by
  have h := C3_cycle_components_merged_and_removed rmCycle 0 1 (by decide) (by decide)
  exact ⟨h.1 1 (by decide) (by decide), h.2.trans (by decide)⟩

/-- Unfolding of one scan step of the per-component search. -/
theorem searchGo_cons (d : Config → Config → ℚ) (q : Config) (c : ℕ)
    (nd : NodeT) (rest : List NodeT) (i : ℕ) (best : Option (ℕ × ℚ)) :
    searchGo d q c (nd :: rest) i best =
      searchGo d q c rest (i + 1)
        (if nd.cc = c then
          match best with
          | none => some (i, d q nd.conf)
          | some (bn, bd) =>
            if d q nd.conf < bd then some (i, d q nd.conf) else some (bn, bd)
        else best) :=
  rfl

/-- A scan started from a `some` incumbent returns a `some` result. -/
theorem searchGo_keeps_some (d : Config → Config → ℚ) (q : Config) (c : ℕ) :
    ∀ (l : List NodeT) (i n0 : ℕ) (d0 : ℚ),
      ∃ n dm, searchGo d q c l i (some (n0, d0)) = some (n, dm)
  | [], i, n0, d0 => ⟨n0, d0, rfl⟩
  | nd :: rest, i, n0, d0 => by
    rw [searchGo_cons]
    by_cases h : nd.cc = c
    · rw [if_pos h]
      by_cases hlt : d q nd.conf < d0
      · simpa [hlt] using searchGo_keeps_some d q c rest (i + 1) i (d q nd.conf)
      · simpa [hlt] using searchGo_keeps_some d q c rest (i + 1) n0 d0
    · rw [if_neg h]
      exact searchGo_keeps_some d q c rest (i + 1) n0 d0

/-- If some scanned node belongs to the component, the scan returns a
result. -/
theorem searchGo_some (d : Config → Config → ℚ) (q : Config) (c : ℕ) :
    ∀ (l : List NodeT) (i : ℕ) (best : Option (ℕ × ℚ)),
      (∃ nd ∈ l, nd.cc = c) → ∃ n dm, searchGo d q c l i best = some (n, dm)
  | [], _, _ => fun h => absurd h (by simp)
  | nd :: rest, i, best => fun h => by
    rw [searchGo_cons]
    by_cases hc : nd.cc = c
    · rw [if_pos hc]
      cases best with
      | none => exact searchGo_keeps_some d q c rest (i + 1) i (d q nd.conf)
      | some b =>
        by_cases hlt : d q nd.conf < b.2
        · simpa [hlt] using searchGo_keeps_some d q c rest (i + 1) i (d q nd.conf)
        · simpa [hlt] using searchGo_keeps_some d q c rest (i + 1) b.1 b.2
    · rw [if_neg hc]
      rcases h with ⟨nd', hmem, hcc⟩
      rcases List.mem_cons.mp hmem with rfl | hmem'
      · exact absurd hcc hc
      · exact searchGo_some d q c rest (i + 1) best ⟨nd', hmem', hcc⟩

/-- Where the scan's answer comes from: either it is the incumbent, or it
is a scanned node of the component, at the reported offset, at the reported
distance. -/
theorem searchGo_attains (d : Config → Config → ℚ) (q : Config) (c : ℕ) :
    ∀ (l : List NodeT) (i : ℕ) (best : Option (ℕ × ℚ)) (n : ℕ) (dm : ℚ),
      searchGo d q c l i best = some (n, dm) →
      best = some (n, dm) ∨
      ∃ j, ∃ hj : j < l.length, n = i + j ∧ (l.get ⟨j, hj⟩).cc = c ∧
        d q (l.get ⟨j, hj⟩).conf = dm
  | [], i, best, n, dm => fun h => Or.inl h
  | nd :: rest, i, best, n, dm => fun h => by
    rw [searchGo_cons] at h
    have step := searchGo_attains d q c rest (i + 1) _ n dm h
    rcases step with hbest | ⟨j, hj, hn, hcc, hd⟩
    · by_cases hc : nd.cc = c
      · rw [if_pos hc] at hbest
        cases best with
        | none =>
          simp only [Option.some.injEq, Prod.mk.injEq] at hbest
          exact Or.inr ⟨0, by simp, by omega, by simpa [hbest.1.symm] using hc,
            by simpa [hbest.1.symm] using hbest.2⟩
        | some b =>
          obtain ⟨bn, bd⟩ := b
          simp only at hbest
          by_cases hlt : d q nd.conf < bd
          · rw [if_pos hlt] at hbest
            simp only [Option.some.injEq, Prod.mk.injEq] at hbest
            exact Or.inr ⟨0, by simp, by omega, by simpa [hbest.1.symm] using hc,
              by simpa [hbest.1.symm] using hbest.2⟩
          · rw [if_neg hlt] at hbest
            exact Or.inl (by simpa using hbest)
      · rw [if_neg hc] at hbest
        exact Or.inl hbest
    · exact Or.inr ⟨j + 1, by simpa using Nat.succ_lt_succ hj,
        by omega, hcc, hd⟩

/-- Minimality of the scan's answer: it is bounded by the incumbent and by
the distance of every scanned node of the component. -/
theorem searchGo_lb (d : Config → Config → ℚ) (q : Config) (c : ℕ) :
    ∀ (l : List NodeT) (i : ℕ) (best : Option (ℕ × ℚ)) (n : ℕ) (dm : ℚ),
      searchGo d q c l i best = some (n, dm) →
      (∀ bn bd, best = some (bn, bd) → dm ≤ bd) ∧
      (∀ nd ∈ l, nd.cc = c → dm ≤ d q nd.conf)
  | [], i, best, n, dm => fun h => by
    constructor
    · intro bn bd hb
      rw [hb] at h
      simp only [searchGo, Option.some.injEq, Prod.mk.injEq] at h
      exact le_of_eq h.2.symm
    · intro nd hmem
      exact absurd hmem (List.not_mem_nil nd)
  | nd :: rest, i, best, n, dm => fun h => by
    rw [searchGo_cons] at h
    have ih := searchGo_lb d q c rest (i + 1) _ n dm h
    by_cases hc : nd.cc = c
    · rw [if_pos hc] at ih
      constructor
      · intro bn bd hb
        subst hb
        by_cases hlt : d q nd.conf < bd
        · exact le_of_lt (lt_of_le_of_lt (ih.1 i (d q nd.conf) (by simp [hlt])) hlt)
        · exact ih.1 bn bd (by simp [hlt])
      · intro nd' hmem hcc
        rcases List.mem_cons.mp hmem with rfl | hmem'
        · cases best with
          | none => exact ih.1 i (d q nd'.conf) rfl
          | some b =>
            by_cases hlt : d q nd'.conf < b.2
            · exact ih.1 i (d q nd'.conf) (by simp [hlt])
            · exact le_trans (ih.1 b.1 b.2 (by simp [hlt])) (le_of_not_lt hlt)
        · exact ih.2 nd' hmem' hcc
    · rw [if_neg hc] at ih
      constructor
      · exact ih.1
      · intro nd' hmem hcc
        rcases List.mem_cons.mp hmem with rfl | hmem'
        · exact absurd hcc hc
        · exact ih.2 nd' hmem' hcc

/-- A successful `KdTree::search` returns a node of the queried component,
at its true distance. -/
theorem kdSearch_attains (d : Config → Config → ℚ) (nodes : List NodeT)
    (q : Config) (c : ℕ) (n : ℕ) (dm : ℚ)
    (h : kdSearch d nodes q c = some (n, dm)) :
    ∃ hn : n < nodes.length, (nodes.get ⟨n, hn⟩).cc = c ∧
      d q (nodes.get ⟨n, hn⟩).conf = dm := by
  rcases searchGo_attains d q c nodes 0 none n dm h with hbest | ⟨j, hj, hn, hcc, hd⟩
  · exact absurd hbest (by simp)
  · subst hn
    exact ⟨by simpa using hj, by simpa using hcc, by simpa using hd⟩

/-- Minimality of `KdTree::search` over the component's nodes. -/
theorem kdSearch_lb (d : Config → Config → ℚ) (nodes : List NodeT)
    (q : Config) (c : ℕ) (n : ℕ) (dm : ℚ)
    (h : kdSearch d nodes q c = some (n, dm)) :
    ∀ nd ∈ nodes, nd.cc = c → dm ≤ d q nd.conf :=
  (searchGo_lb d q c nodes 0 none n dm h).2

/-- `KdTree::search` succeeds whenever the component has a node. -/
theorem kdSearch_some (d : Config → Config → ℚ) (nodes : List NodeT)
    (q : Config) (c : ℕ) (h : ∃ nd ∈ nodes, nd.cc = c) :
    ∃ n dm, kdSearch d nodes q c = some (n, dm) :=
  searchGo_some d q c nodes 0 none h

/-- Unfolding of the component loop of `nearestNode` when the component's
search finds nothing. -/
theorem nearGo_cons_none (d : Config → Config → ℚ) (nodes : List NodeT) (q : Config)
    (k : Comp) (rest : List Comp) (best : Option ℕ × WithTop ℚ)
    (hks : kdSearch d nodes q k.cid = none) :
    nearGo d nodes q (k :: rest) best = nearGo d nodes q rest best := by
  simp [nearGo, hks]

/-- Unfolding of the component loop of `nearestNode` when the component's
search returns a candidate. -/
theorem nearGo_cons_some (d : Config → Config → ℚ) (nodes : List NodeT) (q : Config)
    (k : Comp) (rest : List Comp) (best : Option ℕ × WithTop ℚ) (n : ℕ) (dist : ℚ)
    (hks : kdSearch d nodes q k.cid = some (n, dist)) :
    nearGo d nodes q (k :: rest) best =
      if (dist : WithTop ℚ) < best.2 then
        nearGo d nodes q rest (some n, (dist : WithTop ℚ))
      else nearGo d nodes q rest best := by
  simp [nearGo, hks]

/-- Once the incumbent is a real node, the loop's answer is a real node. -/
theorem nearGo_keeps_some (d : Config → Config → ℚ) (nodes : List NodeT) (q : Config) :
    ∀ (comps : List Comp) (n0 : ℕ) (b2 : WithTop ℚ),
      ∃ n, (nearGo d nodes q comps (some n0, b2)).1 = some n
  | [], n0, b2 => ⟨n0, rfl⟩
  | k :: rest, n0, b2 => by
    cases hks : kdSearch d nodes q k.cid with
    | none =>
      rw [nearGo_cons_none d nodes q k rest _ hks]
      exact nearGo_keeps_some d nodes q rest n0 b2
    | some v =>
      obtain ⟨n1, dist⟩ := v
      rw [nearGo_cons_some d nodes q k rest _ n1 dist hks]
      by_cases hlt : (dist : WithTop ℚ) < b2
      · rw [if_pos hlt]
        exact nearGo_keeps_some d nodes q rest n1 (dist : WithTop ℚ)
      · rw [if_neg hlt]
        exact nearGo_keeps_some d nodes q rest n0 b2

/-- The loop returns a real node as soon as some listed component owns a
node, provided a null incumbent means an infinite incumbent distance. -/
theorem nearGo_some (d : Config → Config → ℚ) (nodes : List NodeT) (q : Config) :
    ∀ (comps : List Comp) (best : Option ℕ × WithTop ℚ),
      (best.1 = none → best.2 = ⊤) →
      (∃ k ∈ comps, ∃ nd ∈ nodes, nd.cc = k.cid) →
      ∃ n, (nearGo d nodes q comps best).1 = some n
  | [], _, _ => fun hex => absurd hex (by simp)
  | k :: rest, best, hinv => fun hex => by
    obtain ⟨b1, b2⟩ := best
    cases b1 with
    | some n0 => exact nearGo_keeps_some d nodes q (k :: rest) n0 b2
    | none =>
      have hb2 : b2 = ⊤ := hinv rfl
      subst hb2
      rcases hex with ⟨k', hk', nd, hnd, hcc⟩
      rcases List.mem_cons.mp hk' with rfl | hmem
      · obtain ⟨n1, dist, hks⟩ := kdSearch_some d nodes q k'.cid ⟨nd, hnd, hcc⟩
        rw [nearGo_cons_some d nodes q k' rest _ n1 dist hks,
          if_pos (WithTop.coe_lt_top dist)]
        exact nearGo_keeps_some d nodes q rest n1 (dist : WithTop ℚ)
      · cases hks : kdSearch d nodes q k.cid with
        | none =>
          rw [nearGo_cons_none d nodes q k rest _ hks]
          exact nearGo_some d nodes q rest (none, ⊤) (fun _ => rfl) ⟨k', hmem, nd, hnd, hcc⟩
        | some v =>
          obtain ⟨n1, dist⟩ := v
          rw [nearGo_cons_some d nodes q k rest _ n1 dist hks,
            if_pos (WithTop.coe_lt_top dist)]
          exact nearGo_keeps_some d nodes q rest n1 (dist : WithTop ℚ)

/-- The loop's answer is bounded by the incumbent distance and by the
distance of every node owned by a listed component. -/
theorem nearGo_lb (d : Config → Config → ℚ) (nodes : List NodeT) (q : Config) :
    ∀ (comps : List Comp) (best : Option ℕ × WithTop ℚ),
      (nearGo d nodes q comps best).2 ≤ best.2 ∧
      ∀ k ∈ comps, ∀ nd ∈ nodes, nd.cc = k.cid →
        (nearGo d nodes q comps best).2 ≤ (d q nd.conf : WithTop ℚ)
  | [], best => ⟨le_refl _, by simp⟩
  | k :: rest, best => by
    cases hks : kdSearch d nodes q k.cid with
    | none =>
      rw [nearGo_cons_none d nodes q k rest _ hks]
      have ih := nearGo_lb d nodes q rest best
      refine ⟨ih.1, fun k' hk' nd hnd hcc => ?_⟩
      rcases List.mem_cons.mp hk' with rfl | hmem
      · exact absurd (kdSearch_some d nodes q k'.cid ⟨nd, hnd, hcc⟩)
          (by simp [hks])
      · exact ih.2 k' hmem nd hnd hcc
    | some v =>
      obtain ⟨n1, dist⟩ := v
      rw [nearGo_cons_some d nodes q k rest _ n1 dist hks]
      by_cases hlt : (dist : WithTop ℚ) < best.2
      · rw [if_pos hlt]
        have ih := nearGo_lb d nodes q rest (some n1, (dist : WithTop ℚ))
        refine ⟨le_of_lt (lt_of_le_of_lt ih.1 hlt), fun k' hk' nd hnd hcc => ?_⟩
        rcases List.mem_cons.mp hk' with rfl | hmem
        · refine le_trans ih.1 ?_
          show (dist : WithTop ℚ) ≤ (d q nd.conf : WithTop ℚ)
          exact_mod_cast kdSearch_lb d nodes q k'.cid n1 dist hks nd hnd hcc
        · exact ih.2 k' hmem nd hnd hcc
      · rw [if_neg hlt]
        have ih := nearGo_lb d nodes q rest best
        refine ⟨ih.1, fun k' hk' nd hnd hcc => ?_⟩
        rcases List.mem_cons.mp hk' with rfl | hmem
        · refine le_trans ih.1 (le_trans (le_of_not_lt hlt) ?_)
          show (dist : WithTop ℚ) ≤ (d q nd.conf : WithTop ℚ)
          exact_mod_cast kdSearch_lb d nodes q k'.cid n1 dist hks nd hnd hcc
        · exact ih.2 k' hmem nd hnd hcc

/-- The loop's answer is either the untouched incumbent or a real node of
the roadmap reported together with its true distance. -/
theorem nearGo_attains (d : Config → Config → ℚ) (nodes : List NodeT) (q : Config) :
    ∀ (comps : List Comp) (best : Option ℕ × WithTop ℚ),
      nearGo d nodes q comps best = best ∨
      ∃ n, (nearGo d nodes q comps best).1 = some n ∧
        ∃ hn : n < nodes.length,
          (nearGo d nodes q comps best).2 = (d q (nodes.get ⟨n, hn⟩).conf : WithTop ℚ)
  | [], best => Or.inl rfl
  | k :: rest, best => by
    cases hks : kdSearch d nodes q k.cid with
    | none =>
      rw [nearGo_cons_none d nodes q k rest _ hks]
      exact nearGo_attains d nodes q rest best
    | some v =>
      obtain ⟨n1, dist⟩ := v
      rw [nearGo_cons_some d nodes q k rest _ n1 dist hks]
      by_cases hlt : (dist : WithTop ℚ) < best.2
      · rw [if_pos hlt]
        rcases nearGo_attains d nodes q rest (some n1, (dist : WithTop ℚ)) with heq | hat
        · rw [heq]
          obtain ⟨hn, hcc, hd⟩ := kdSearch_attains d nodes q k.cid n1 dist hks
          exact Or.inr ⟨n1, rfl, hn, by rw [hd]⟩
        · exact Or.inr hat
      · rw [if_neg hlt]
        exact nearGo_attains d nodes q rest best

/-- Coordinate-wise absolute differences are non-negative. -/
theorem absSum_nonneg : ∀ a b : Config, 0 ≤ absSum a b
  | [], [] => le_refl 0
  | [], _ :: _ => le_refl 0
  | _ :: _, [] => le_refl 0
  | _ :: xs, _ :: ys => add_nonneg (abs_nonneg _) (absSum_nonneg xs ys)

/-- On equal-length configurations, the L1 sum vanishes exactly on equal
configurations. -/
theorem absSum_eq_zero_iff : ∀ a b : Config, a.length = b.length →
    (absSum a b = 0 ↔ a = b)
  | [], [], _ => by simp [absSum]
  | [], _ :: _, h => by simp at h
  | _ :: _, [], h => by simp at h
  | x :: xs, y :: ys, h => by
    simp only [List.length_cons, Nat.succ.injEq] at h
    rw [show absSum (x :: xs) (y :: ys) = |x - y| + absSum xs ys from rfl]
    rw [add_eq_zero_iff_of_nonneg (abs_nonneg _) (absSum_nonneg xs ys)]
    rw [abs_eq_zero, sub_eq_zero, absSum_eq_zero_iff xs ys h]
    simp

/-- The concrete metric is non-negative. -/
theorem distL1_nonneg : ∀ a b : Config, 0 ≤ distL1 a b := by
  intro a b
  unfold distL1
  split
  · exact absSum_nonneg a b
  · norm_num

/-- The concrete metric vanishes exactly on coordinate-equal
configurations, as the spec requires. -/
theorem distL1_eq_zero_iff : ∀ a b : Config, distL1 a b = 0 ↔ a = b := by
  intro a b
  unfold distL1
  split
  · next h => exact absSum_eq_zero_iff a b h
  · next h =>
    constructor
    · intro h1
      norm_num at h1
    · intro h1
      exact absurd (congrArg List.length h1) h

/-- C5: on a non-empty roadmap whose nodes all sit in tracked components,
`nearestNode` — the minimum of the per-component k-d searches — returns a
node attaining the minimum of the distance metric to `q` over all nodes of
the roadmap, i.e. it agrees with a brute-force scan. -/
theorem C5_nearest_is_global_argmin (d : Config → Config → ℚ) (rm : Roadmap)
    (q : Config) (hne : rm.nodes ≠ [])
    (hcov : ∀ nd ∈ rm.nodes, nd.cc ∈ rm.comps.map (fun k => k.cid)) :
    ∃ n dm, ∃ hn : n < rm.nodes.length,
      Roadmap.nearestNode d rm q = (some n, (dm : WithTop ℚ)) ∧
      d q (rm.nodes.get ⟨n, hn⟩).conf = dm ∧
      ∀ nd ∈ rm.nodes, dm ≤ d q nd.conf := by
  obtain ⟨nd0, hnd0⟩ := List.exists_mem_of_ne_nil rm.nodes hne
  obtain ⟨k0, hk0, hkcid⟩ := List.mem_map.mp (hcov nd0 hnd0)
  obtain ⟨n1, hn1⟩ := nearGo_some d rm.nodes q rm.comps (none, ⊤)
    (fun _ => rfl) ⟨k0, hk0, nd0, hnd0, hkcid.symm⟩
  rcases nearGo_attains d rm.nodes q rm.comps (none, ⊤) with heq | hat
  · rw [heq] at hn1
    exact absurd hn1 (by simp)
  · obtain ⟨n, hfst, hn, hsnd⟩ := hat
    refine ⟨n, d q (rm.nodes.get ⟨n, hn⟩).conf, hn, ?_, rfl, ?_⟩
    · unfold Roadmap.nearestNode
      exact Prod.ext hfst hsnd
    · intro nd hnd
      obtain ⟨k, hk, hcid⟩ := List.mem_map.mp (hcov nd hnd)
      have hb := (nearGo_lb d rm.nodes q rm.comps (none, ⊤)).2 k hk nd hnd hcid.symm
      rw [hsnd] at hb
      exact_mod_cast hb

/-- C4: when the roadmap already contains a node whose configuration is
coordinate-wise equal to `q` (in a tracked component), and the metric is
non-negative and vanishes exactly on equal configurations, `addNode q`
deduplicates: it returns an existing node whose configuration equals `q`
and leaves the entire roadmap state — nodes, edges, components, k-d tree —
unchanged.  Repeated calls with the same `q` therefore change nothing. -/
theorem C4_addNode_dedup (d : Config → Config → ℚ) (rm : Roadmap) (q : Config)
    (hnn : ∀ a b : Config, 0 ≤ d a b)
    (hz : ∀ a b : Config, d a b = 0 ↔ a = b)
    (hex : ∃ nd ∈ rm.nodes, nd.conf = q ∧ nd.cc ∈ rm.comps.map (fun k => k.cid)) :
    (Roadmap.addNode d rm q).1 = rm ∧
    ∃ hn : (Roadmap.addNode d rm q).2 < rm.nodes.length,
      (rm.nodes.get ⟨(Roadmap.addNode d rm q).2, hn⟩).conf = q := by
  obtain ⟨nd0, hnd0, hconf0, hcc0⟩ := hex
  obtain ⟨k0, hk0, hkcid⟩ := List.mem_map.mp hcc0
  obtain ⟨n1, hn1⟩ := nearGo_some d rm.nodes q rm.comps (none, ⊤)
    (fun _ => rfl) ⟨k0, hk0, nd0, hnd0, hkcid.symm⟩
  rcases nearGo_attains d rm.nodes q rm.comps (none, ⊤) with heq | hat
  · rw [heq] at hn1
    exact absurd hn1 (by simp)
  obtain ⟨n, hfst, hn, hsnd⟩ := hat
  have hb := (nearGo_lb d rm.nodes q rm.comps (none, ⊤)).2 k0 hk0 nd0 hnd0 hkcid.symm
  rw [hsnd] at hb
  have hzero : d q (rm.nodes.get ⟨n, hn⟩).conf = 0 := by
    have h1 : d q (rm.nodes.get ⟨n, hn⟩).conf ≤ d q nd0.conf := by exact_mod_cast hb
    rw [hconf0] at h1
    have h2 : d q q = 0 := (hz q q).mpr rfl
    exact le_antisymm (h2 ▸ h1) (hnn _ _)
  have hconf : (rm.nodes.get ⟨n, hn⟩).conf = q := ((hz _ _).mp hzero).symm
  have hnear : Roadmap.nearestNode d rm q =
      (some n, (d q (rm.nodes.get ⟨n, hn⟩).conf : WithTop ℚ)) := by
    unfold Roadmap.nearestNode
    exact Prod.ext hfst hsnd
  have hlen : rm.nodes.length ≠ 0 := by
    intro h0
    exact absurd (List.length_eq_zero.mp h0 ▸ hnd0) (List.not_mem_nil nd0)
  have hnodeConf : nodeConf rm.nodes n = q := by
    unfold nodeConf
    rw [List.get?_eq_get hn]
    simpa using hconf
  have hstep : Roadmap.addNode d rm q = (rm, n) := by
    unfold Roadmap.addNode
    rw [if_pos hlen, hnear]
    simp [hnodeConf]
  rw [hstep]
  exact ⟨rfl, hn, hconf⟩

theorem C4_addNode_dedup_witness :
    (Roadmap.addNode distL1 rmOne [5]).1 = rmOne ∧
    ∃ hn : (Roadmap.addNode distL1 rmOne [5]).2 < rmOne.nodes.length,
      (rmOne.nodes.get ⟨(Roadmap.addNode distL1 rmOne [5]).2, hn⟩).conf = [5] :=
  C4_addNode_dedup distL1 rmOne [5] distL1_nonneg distL1_eq_zero_iff
    ⟨⟨[5], 0, [], []⟩, by decide, by decide, by decide⟩

theorem C5_nearest_is_global_argmin_witness :
    ∃ n dm, ∃ hn : n < rmClusters.nodes.length,
      Roadmap.nearestNode distL1 rmClusters [2] = (some n, (dm : WithTop ℚ)) ∧
      distL1 [2] (rmClusters.nodes.get ⟨n, hn⟩).conf = dm ∧
      ∀ nd ∈ rmClusters.nodes, dm ≤ distL1 [2] nd.conf :=
  C5_nearest_is_global_argmin distL1 rmClusters [2] (by decide) (by decide)

/-- Membership in one expansion step of the reachability search. -/
theorem mem_reachStep (comps : List Comp) (s : List ℕ) (x : ℕ) :
    x ∈ reachStep comps s ↔ x ∈ s ∨ ∃ b ∈ s, x ∈ ccReachTo comps b := by
  simp only [reachStep, List.mem_append, List.mem_filter, List.mem_flatMap,
    decide_eq_true_eq]
  constructor
  · rintro (h | ⟨⟨b, hb, hx⟩, -⟩)
    · exact Or.inl h
    · exact Or.inr ⟨b, hb, hx⟩
  · rintro (h | ⟨b, hb, hx⟩)
    · exact Or.inl h
    · by_cases hs : x ∈ s
      · exact Or.inl hs
      · exact Or.inr ⟨⟨b, hb, hx⟩, hs⟩

/-- The frontier is kept by an expansion step. -/
theorem subset_reachStep (comps : List Comp) {s : List ℕ} {x : ℕ} (h : x ∈ s) :
    x ∈ reachStep comps s :=
  (mem_reachStep comps s x).mpr (Or.inl h)

/-- Peeling the last expansion step of the iteration. -/
theorem reachIterate_succ_out (comps : List Comp) :
    ∀ (n : ℕ) (s : List ℕ),
      reachIterate comps (n + 1) s = reachStep comps (reachIterate comps n s)
  | 0, _ => rfl
  | n + 1, s => by
    show reachIterate comps (n + 1) (reachStep comps s) = _
    rw [reachIterate_succ_out comps n (reachStep comps s)]
    rfl

/-- The iteration is additive in the step count. -/
theorem reachIterate_add (comps : List Comp) :
    ∀ (a b : ℕ) (s : List ℕ),
      reachIterate comps (a + b) s = reachIterate comps a (reachIterate comps b s)
  | _, 0, _ => rfl
  | a, b + 1, s => reachIterate_add comps a b (reachStep comps s)

/-- The start set survives any number of expansion steps. -/
theorem mem_reachIterate_of_mem (comps : List Comp) :
    ∀ (n : ℕ) (s : List ℕ) (x : ℕ), x ∈ s → x ∈ reachIterate comps n s
  | 0, _, _ => id
  | n + 1, s, x => fun hx =>
    mem_reachIterate_of_mem comps n (reachStep comps s) x (subset_reachStep comps hx)

/-- Soundness of the bounded search: everything it visits is genuinely
reachable from the start set. -/
theorem reachIterate_sound (comps : List Comp) :
    ∀ (n : ℕ) (s : List ℕ) (x : ℕ),
      x ∈ reachIterate comps n s → ∃ b ∈ s, Reaches comps b x
  | 0, _, x => fun hx => ⟨x, hx, Relation.ReflTransGen.refl⟩
  | n + 1, s, x => fun hx => by
    obtain ⟨b, hb, hr⟩ := reachIterate_sound comps n (reachStep comps s) x hx
    rcases (mem_reachStep comps s b).mp hb with hb' | ⟨b', hb', hlink⟩
    · exact ⟨b, hb', hr⟩
    · exact ⟨b', hb', Relation.ReflTransGen.head hlink hr⟩

/-- The expansion step only looks at the membership of its frontier. -/
theorem reachStep_ext (comps : List Comp) {s t : List ℕ}
    (h : ∀ y, y ∈ s ↔ y ∈ t) (x : ℕ) :
    x ∈ reachStep comps s ↔ x ∈ reachStep comps t := by
  rw [mem_reachStep, mem_reachStep]
  constructor
  · rintro (h1 | ⟨b, hb, hx⟩)
    · exact Or.inl ((h x).mp h1)
    · exact Or.inr ⟨b, (h b).mp hb, hx⟩
  · rintro (h1 | ⟨b, hb, hx⟩)
    · exact Or.inl ((h x).mpr h1)
    · exact Or.inr ⟨b, (h b).mpr hb, hx⟩

/-- The iteration only looks at the membership of its start set. -/
theorem reachIterate_ext (comps : List Comp) :
    ∀ (n : ℕ) {s t : List ℕ}, (∀ y, y ∈ s ↔ y ∈ t) →
      ∀ x, x ∈ reachIterate comps n s ↔ x ∈ reachIterate comps n t
  | 0, _, _, h => h
  | n + 1, _, _, h =>
    reachIterate_ext comps n (fun y => reachStep_ext comps h y)

/-- Iterating from a fixed point of the expansion step stays there. -/
theorem reachIterate_fix (comps : List Comp) {s : List ℕ}
    (hfix : ∀ y, y ∈ reachStep comps s ↔ y ∈ s) :
    ∀ (n : ℕ) (x : ℕ), x ∈ reachIterate comps n s ↔ x ∈ s
  | 0, _ => Iff.rfl
  | n + 1, x => by
    show x ∈ reachIterate comps n (reachStep comps s) ↔ x ∈ s
    rw [reachIterate_ext comps n hfix x]
    exact reachIterate_fix comps hfix n x

/-- A `reachable_to` entry of any component belongs to the global pool of
recorded links. -/
theorem ccReachTo_subset_flatMap (comps : List Comp) (b x : ℕ)
    (h : x ∈ ccReachTo comps b) :
    x ∈ comps.flatMap (fun k => k.reachableTo) := by
  unfold ccReachTo at h
  cases hf : comps.find? (fun k => k.cid == b) with
  | none => rw [hf] at h; exact absurd h (List.not_mem_nil x)
  | some k =>
    rw [hf] at h
    exact List.mem_flatMap.mpr ⟨k, List.mem_of_find?_eq_some hf, h⟩

/-- Everything the bounded search visits is the start set or a recorded
link target. -/
theorem reachIterate_universe (comps : List Comp) :
    ∀ (n : ℕ) (s : List ℕ) (x : ℕ), x ∈ reachIterate comps n s →
      x ∈ s ∨ x ∈ comps.flatMap (fun k => k.reachableTo)
  | 0, _, _ => Or.inl
  | n + 1, s, x => fun hx => by
    rcases reachIterate_universe comps n (reachStep comps s) x hx with h1 | h1
    · rcases (mem_reachStep comps s x).mp h1 with h2 | ⟨b, _, h2⟩
      · exact Or.inl h2
      · exact Or.inr (ccReachTo_subset_flatMap comps b x h2)
    · exact Or.inr h1

/-- After `reachFuel` many expansion steps the search has saturated:
`reachableSet` is a fixed point of the expansion step. -/
theorem reachableSet_closed (comps : List Comp) (c : ℕ) :
    ∀ x, x ∈ reachStep comps (reachableSet comps c) ↔ x ∈ reachableSet comps c := by
  by_cases hP : ∃ i, i ≤ reachFuel comps ∧ ∀ x,
      x ∈ reachStep comps (reachIterate comps i [c]) ↔ x ∈ reachIterate comps i [c]
  · obtain ⟨i, hiN, hfix⟩ := hP
    have hadd : reachIterate comps (reachFuel comps) [c] =
        reachIterate comps (reachFuel comps - i) (reachIterate comps i [c]) := by
      rw [← reachIterate_add]
      congr 1
      omega
    have hNi : ∀ y, y ∈ reachIterate comps (reachFuel comps) [c] ↔
        y ∈ reachIterate comps i [c] := by
      intro y
      rw [hadd]
      exact reachIterate_fix comps hfix (reachFuel comps - i) y
    intro x
    unfold reachableSet
    constructor
    · intro hx
      exact (hNi x).mpr ((hfix x).mp ((reachStep_ext comps hNi x).mp hx))
    · intro hx
      exact subset_reachStep comps hx
  · exfalso
    push_neg at hP
    have hgrow : ∀ m, m ≤ reachFuel comps →
        m + 1 ≤ ((reachIterate comps m [c]).toFinset).card := by
      intro m
      induction m with
      | zero =>
        intro _
        simp [reachIterate]
      | succ m ih =>
        intro hm
        have hsub : (reachIterate comps m [c]).toFinset ⊆
            (reachIterate comps (m + 1) [c]).toFinset := by
          intro y hy
          rw [List.mem_toFinset] at hy ⊢
          rw [reachIterate_succ_out]
          exact subset_reachStep comps hy
        obtain ⟨x, hx⟩ := hP m (by omega)
        have hne : (reachIterate comps m [c]).toFinset ≠
            (reachIterate comps (m + 1) [c]).toFinset := by
          intro heq
          have hmem : ∀ y, y ∈ reachStep comps (reachIterate comps m [c]) ↔
              y ∈ reachIterate comps m [c] := by
            intro y
            constructor
            · intro h1
              have h2 : y ∈ (reachIterate comps (m + 1) [c]).toFinset :=
                List.mem_toFinset.mpr (by rw [reachIterate_succ_out]; exact h1)
              rw [← heq] at h2
              exact List.mem_toFinset.mp h2
            · intro h1
              exact subset_reachStep comps h1
          rcases hx with ⟨h1, h2⟩ | ⟨h1, h2⟩
          · exact h2 ((hmem x).mp h1)
          · exact h1 ((hmem x).mpr h2)
        have hlt := Finset.card_lt_card (Finset.ssubset_iff_subset_ne.mpr ⟨hsub, hne⟩)
        have := ih (by omega)
        omega
    have hup : ((reachIterate comps (reachFuel comps) [c]).toFinset).card ≤
        reachFuel comps := by
      have hsubU : (reachIterate comps (reachFuel comps) [c]).toFinset ⊆
          (c :: comps.flatMap (fun k => k.reachableTo)).toFinset := by
        intro y hy
        rw [List.mem_toFinset] at hy ⊢
        rcases reachIterate_universe comps (reachFuel comps) [c] y hy with h1 | h1
        · simp only [List.mem_singleton] at h1
          simp [h1]
        · simp [h1]
      calc ((reachIterate comps (reachFuel comps) [c]).toFinset).card
          ≤ ((c :: comps.flatMap (fun k => k.reachableTo)).toFinset).card :=
            Finset.card_le_card hsubU
        _ ≤ (c :: comps.flatMap (fun k => k.reachableTo)).length :=
            List.toFinset_card_le _
        _ = reachFuel comps := by simp [reachFuel]
    have := hgrow (reachFuel comps) (le_refl _)
    omega

/-- The bounded search computes exactly the reachability relation. -/
theorem mem_reachableSet_iff_reaches (comps : List Comp) (c x : ℕ) :
    x ∈ reachableSet comps c ↔ Reaches comps c x := by
  constructor
  · intro hx
    obtain ⟨b, hb, hr⟩ := reachIterate_sound comps (reachFuel comps) [c] x hx
    simp only [List.mem_singleton] at hb
    exact hb ▸ hr
  · intro hr
    induction hr with
    | refl => exact mem_reachIterate_of_mem comps (reachFuel comps) [c] c (by simp)
    | tail _ hbx ih =>
      exact (reachableSet_closed comps c _).mp
        ((mem_reachStep comps _ _).mpr (Or.inr ⟨_, ih, hbx⟩))

/-- `canReach` decides the reachability relation. -/
theorem canReach_iff (comps : List Comp) (a b : ℕ) :
    canReach comps a b = true ↔ Reaches comps a b := by
  unfold canReach
  rw [List.elem_iff]
  exact mem_reachableSet_iff_reaches comps a b

/-- C2 (counterexample): after the legal operation sequence building
`rmChain` (three `addNode`s, then `add_edge(0,1)` and `add_edge(1,2)`),
the roadmap tracks components 0, 1, 2 with `1 ∈ 0.reachable_to` and
`2 ∈ 1.reachable_to`, yet `2 ∉ 0.reachable_to`: reachability is **not**
transitively closed as explicit set membership, and `connect` gave the
ancestor component 0 none of the descendants of component 2. -/
theorem C2_explicit_membership_not_transitive :
    rmChain.comps.map (fun k => k.cid) = [0, 1, 2] ∧
    1 ∈ ccReachTo rmChain.comps 0 ∧
    2 ∈ ccReachTo rmChain.comps 1 ∧
    2 ∉ ccReachTo rmChain.comps 0 := by
  decide

/-- C2 (amended): component reachability is transitively closed as the
*computed* relation decided by `canReach` (the reflexive-transitive closure
of the `reachable_to` links), not as explicit set membership: `connect` in
the non-cycle case inserts only `cc2` into `cc1.reachable_to` and `cc1`
into `cc2.reachable_from`, without propagating to ancestors or
descendants. -/
theorem C2_amended_computed_reachability_transitive (comps : List Comp)
    (a b c : ℕ) (h1 : canReach comps a b = true) (h2 : canReach comps b c = true) :
    canReach comps a c = true := by
  rw [canReach_iff] at h1 h2 ⊢
  exact Relation.ReflTransGen.trans h1 h2

theorem C2_amended_computed_reachability_transitive_witness :
    canReach rmChain.comps 0 2 = true :=
  C2_amended_computed_reachability_transitive rmChain.comps 0 1 2
    (by decide) (by decide)

end HppCore
